import Mathlib

/-!
Verification of the templater conditional-inclusion preprocessor.

This file gives a shallow embedding of the core of the program
(src/main.rs and src/parser.rs): the nom-based line and condition
combinators, the condition evaluator, the per-file inclusion engine
`process_content`, and the suggestion helper `find_closest_match`
(strsim levenshtein modelled by the standard one-row dynamic program).

Lines and flag names are modelled as lists of characters; the flag
`HashSet` is modelled as a list with insert-if-absent semantics (claims
about it only concern membership).  The whitespace predicate matches
nom multispace exactly (space, tab, carriage return, line feed); Rust
`str::trim` uses Unicode whitespace, which coincides on such inputs.
Reading lines from the `BufRead` is modelled by handing the engine the
list of lines directly (I/O errors are out of scope).
-/

namespace Templater

abbrev Str := List Char

/-- nom multispace character class: space, tab, carriage return, line feed. -/
def isWS (c : Char) : Bool :=
  c == ' ' || c == '\t' || c == '\r' || c == '\n'

/-- nom take_while1: longest (possibly empty) prefix satisfying p; error when empty.
    Returns (remaining, consumed token). -/
def takeWhile1 (p : Char → Bool) (l : Str) : Option (Str × Str) :=
  let tok := l.takeWhile p
  if tok.isEmpty then none else some (l.dropWhile p, tok)

/-- Characters allowed in a flag identifier: non-whitespace, not a parenthesis. -/
def identChar (c : Char) : Bool :=
  !isWS c && !(c == '(') && !(c == ')')

/-- main.rs identifier: take_while1 over identChar. -/
def identifier (l : Str) : Option (Str × Str) :=
  takeWhile1 identChar l

/-- nom multispace0: consume any run of whitespace, never fails; remaining input. -/
def multispace0 (l : Str) : Str :=
  l.dropWhile isWS

/-- nom multispace1: consume a nonempty run of whitespace or fail. -/
def multispace1 (l : Str) : Option Str :=
  match l with
  | [] => none
  | c :: rest => if isWS c then some (rest.dropWhile isWS) else none

/-- nom tag: match a literal token as a prefix of the input. -/
def tagP (t : Str) (l : Str) : Option Str :=
  if t.isPrefixOf l then some (l.drop t.length) else none

/-- Loop of nom separated_list1 multispace1 identifier, after the first element:
    repeatedly consume a separator and an element, backtracking over a trailing
    separator.  Each iteration consumes at least two characters, so fuel equal
    to the input length (supplied by identList1) is never exhausted. -/
def identListLoop : Nat → Str → Str × List Str
  | 0, l => (l, [])
  | fuel + 1, l =>
    match multispace1 l with
    | none => (l, [])
    | some rest =>
      match identifier rest with
      | none => (l, [])
      | some (rest2, tok) =>
        let (rem, toks) := identListLoop fuel rest2
        (rem, tok :: toks)

/-- nom separated_list1 multispace1 identifier: one or more identifiers
    separated by whitespace. -/
def identList1 (l : Str) : Option (Str × List Str) :=
  match identifier l with
  | none => none
  | some (rest, tok) =>
    let (rem, toks) := identListLoop rest.length rest
    some (rem, tok :: toks)

/-- Parsed condition of a directive (main.rs Condition). -/
inductive Condition where
  | Single (flag : Str)
  | And (terms : List Str)
  | Or (terms : List Str)
deriving DecidableEq, Repr

/-- main.rs parse_and: delimited(tag "(and", preceded(multispace1,
    separated_list1(multispace1, identifier)), preceded(multispace0, char of
    the closing parenthesis)). -/
def parse_and (l : Str) : Option (Str × Condition) :=
  match tagP "(and".toList l with
  | none => none
  | some r1 =>
    match multispace1 r1 with
    | none => none
    | some r2 =>
      match identList1 r2 with
      | none => none
      | some (r3, toks) =>
        match multispace0 r3 with
        | ')' :: r5 => some (r5, .And toks)
        | _ => none

/-- main.rs parse_or: same shape as parse_and with the "(or" tag. -/
def parse_or (l : Str) : Option (Str × Condition) :=
  match tagP "(or".toList l with
  | none => none
  | some r1 =>
    match multispace1 r1 with
    | none => none
    | some r2 =>
      match identList1 r2 with
      | none => none
      | some (r3, toks) =>
        match multispace0 r3 with
        | ')' :: r5 => some (r5, .Or toks)
        | _ => none

/-- main.rs parse_single: a lone identifier. -/
def parse_single (l : Str) : Option (Str × Condition) :=
  match identifier l with
  | none => none
  | some (rest, tok) => some (rest, .Single tok)

/-- main.rs parse_condition (identical to parser.rs parse_condition_type):
    alt(parse_and, parse_or, parse_single). -/
def parse_condition (l : Str) : Option (Str × Condition) :=
  match parse_and l with
  | some r => some r
  | none =>
    match parse_or l with
    | some r => some r
    | none => parse_single l

/-- Rust str::trim: strip leading and trailing whitespace. -/
def trimStr (l : Str) : Str :=
  ((l.dropWhile isWS).reverse.dropWhile isWS).reverse

/-- parser.rs parse_condition_str: run terminated(parse_condition_type,
    multispace0) on the trimmed input and require that everything was
    consumed. -/
def parse_condition_str (input : Str) : Except String Condition :=
  match parse_condition (trimStr input) with
  | none => .error "Failed to parse condition structure"
  | some (rem, c) =>
    let rem2 := multispace0 rem
    if rem2.isEmpty then .ok c
    else .error ("Unexpected trailing characters after condition: " ++ String.mk rem2)

/-- main.rs parser::LineParseResult. -/
inductive LineParseResult where
  | If (c : Condition)
  | Endif
  | Content (s : Str)
deriving DecidableEq, Repr

/-- main.rs parse_if_directive: preceded(tuple(multispace0, tag "#if",
    multispace1), terminated(parse_condition, multispace0)).  Note that it
    does not require the end of the line: trailing text is left unconsumed. -/
def parse_if_directive (l : Str) : Option (Str × LineParseResult) :=
  match tagP "#if".toList (multispace0 l) with
  | none => none
  | some r1 =>
    match multispace1 r1 with
    | none => none
    | some r2 =>
      match parse_condition r2 with
      | none => none
      | some (r3, c) => some (multispace0 r3, .If c)

/-- main.rs parse_endif_directive: recognize(tuple(multispace0, tag "#endif",
    multispace0)); trailing text after the marker stays unconsumed. -/
def parse_endif_directive (l : Str) : Option (Str × LineParseResult) :=
  match tagP "#endif".toList (multispace0 l) with
  | none => none
  | some r1 => some (multispace0 r1, .Endif)

/-- main.rs parse_line: alt(parse_if_directive, parse_endif_directive,
    map(rest, Content)).  The last alternative consumes the whole line and
    never fails. -/
def parse_line (l : Str) : Option (Str × LineParseResult) :=
  match parse_if_directive l with
  | some r => some r
  | none =>
    match parse_endif_directive l with
    | some r => some r
    | none => some ([], .Content l)

/-- Membership test of the flag HashSet, modelled on a list. -/
def setContains (s : List Str) (x : Str) : Bool :=
  s.any (fun y => decide (y = x))

/-- HashSet insert (observable only through membership). -/
def setInsert (s : List Str) (x : Str) : List Str :=
  if setContains s x then s else x :: s

/-- HashSet extend by a list of elements. -/
def setExtend (s : List Str) (xs : List Str) : List Str :=
  xs.foldl setInsert s

/-- main.rs Condition::evaluate: the truth value against the flag set
    together with the used-flags accumulator after inserting every flag
    mentioned in the condition. -/
def Condition.evaluate (c : Condition) (flags used : List Str) : Bool × List Str :=
  match c with
  | .Single f => (setContains flags f, setInsert used f)
  | .And ts => (ts.all (setContains flags), setExtend used ts)
  | .Or ts => (ts.any (setContains flags), setExtend used ts)

/-- main.rs Condition::mentioned_flags. -/
def Condition.mentioned_flags (c : Condition) : List Str :=
  match c with
  | .Single f => [f]
  | .And ts => ts
  | .Or ts => ts

/-- main.rs ProcessorError (the Io variant reports reader failures and is
    out of scope of the pure embedding). -/
inductive ProcessorError where
  | MismatchedEndif (line_num : Nat) (path : String)
  | MismatchedIf (path : String)
  | ConditionParse (condition : Str) (line_num : Nat) (path : String) (reason : String)
deriving DecidableEq, Repr

/-- Which line number a ProcessorError value carries, read off its fields:
    MismatchedIf carries none. -/
def errLineNum : ProcessorError → Option Nat
  | .MismatchedEndif n _ => some n
  | .MismatchedIf _ => none
  | .ConditionParse _ n _ _ => some n

/-- State of the process_content loop: the inclusion stack (head is the top,
    i.e. the back of the VecDeque), the retained output, the used-flags
    accumulator, and the number of lines consumed so far. -/
structure PState where
  stack : List Bool
  output : List Str
  used : List Str
  line_num : Nat
deriving DecidableEq, Repr

/-- Initial loop state: stack seeded with the single true sentinel. -/
def initState (used0 : List Str) : PState :=
  { stack := [true], output := [], used := used0, line_num := 0 }

/-- The slice reported in the (dead) ConditionParse branch:
    line.trim_start() stripped of a leading "#if", or the line itself. -/
def stripIfMarker (line : Str) : Str :=
  let t := line.dropWhile isWS
  if "#if".toList.isPrefixOf t then t.drop 3 else line

/-- One iteration of the process_content loop on a single line. -/
def step (flags : List Str) (path : String) (s : PState) (line : Str) :
    Except ProcessorError PState :=
  let n := s.line_num + 1
  match parse_line line with
  | some (_, .If c) =>
    let active := s.stack.headD false
    let ev := c.evaluate flags s.used
    .ok { stack := (active && ev.1) :: s.stack, output := s.output,
          used := ev.2, line_num := n }
  | some (_, .Endif) =>
    if s.stack.length > 1 then
      .ok { s with stack := s.stack.tail, line_num := n }
    else
      .error (.MismatchedEndif n path)
  | some (_, .Content c) =>
    if s.stack.headD false then
      .ok { s with output := s.output ++ [c], line_num := n }
    else
      .ok { s with line_num := n }
  | none =>
    -- Error branch of the source; parse_line in fact always succeeds.
    if !(trimStr line).isEmpty then
      .error (.ConditionParse (trimStr (stripIfMarker line)) n path "nom parser error")
    else if s.stack.headD false then
      .ok { s with output := s.output ++ [line], line_num := n }
    else
      .ok { s with line_num := n }

/-- The line loop of process_content. -/
def runLines (flags : List Str) (path : String) :
    PState → List Str → Except ProcessorError PState
  | s, [] => .ok s
  | s, l :: ls =>
    match step flags path s l with
    | .error e => .error e
    | .ok s2 => runLines flags path s2 ls

/-- main.rs process_content: run the loop from the initial state, then fail
    with MismatchedIf when blocks are still open, else return the retained
    lines and the used-flags accumulator. -/
def process_content (lines : List Str) (path : String)
    (flags used0 : List Str) : Except ProcessorError (List Str × List Str) :=
  match runLines flags path (initState used0) lines with
  | .error e => .error e
  | .ok s =>
    if s.stack.length ≠ 1 then .error (.MismatchedIf path)
    else .ok (s.output, s.used)

/-- Inner loop of the one-row Levenshtein dynamic program (strsim
    levenshtein): given the remaining characters of b, the diagonal and left
    cell values and the rest of the previous row, produce the rest of the
    new row. -/
def levRowLoop (ca : Char) : Str → Nat → Nat → List Nat → List Nat
  | [], _, _, _ => []
  | cb :: cbs, diag, left, old =>
    let oldj := old.headD 0
    let cost : Nat := if ca = cb then 0 else 1
    let nj := min (left + 1) (min (oldj + 1) (diag + cost))
    nj :: levRowLoop ca cbs oldj nj old.tail

/-- One row update of the Levenshtein dynamic program. -/
def levNewRow (ca : Char) (b : Str) (row : List Nat) : List Nat :=
  let f := row.headD 0 + 1
  f :: levRowLoop ca b (row.headD 0) f row.tail

/-- strsim::levenshtein via the standard single-row dynamic program:
    classic edit distance with unit-cost insert, delete and substitute. -/
def levenshtein (a b : Str) : Nat :=
  (a.foldl (fun row ca => levNewRow ca b row) (List.range (b.length + 1))).getLastD 0

/-- Rust Iterator::min_by_key: the first element attaining the minimal key. -/
def minByKey (f : Str → Nat) : List Str → Option Str
  | [] => none
  | x :: xs => some (xs.foldl (fun acc y => if f y < f acc then y else acc) x)

/-- main.rs find_closest_match: among candidates different from the flag,
    the first one of minimal levenshtein distance, kept only when that
    distance is at most min 2 (flag.length / 2 + 1). -/
def find_closest_match (flag : Str) (candidates : List Str) : Option Str :=
  match minByKey (levenshtein flag) (candidates.filter (fun c => decide (c ≠ flag))) with
  | none => none
  | some best =>
    if levenshtein flag best ≤ min 2 (flag.length / 2 + 1) then some best
    else none

/-- Boolean implication used to express that the inclusion stack is
    monotone from its top downwards. -/
def bimp (a b : Bool) : Prop := a = true → b = true

/-! ### Basic lemmas about the modelled flag sets and parsers -/

theorem setContains_iff (s : List Str) (x : Str) : setContains s x = true ↔ x ∈ s := by
  simp [setContains, List.any_eq_true]

theorem mem_setInsert_self (s : List Str) (x : Str) : x ∈ setInsert s x := by
  unfold setInsert
  split
  case isTrue h => exact (setContains_iff s x).mp h
  case isFalse h => exact List.mem_cons_self x s

theorem mem_setInsert_of_mem (s : List Str) (x y : Str) (h : y ∈ s) : y ∈ setInsert s x := by
  unfold setInsert
  split
  · exact h
  · exact List.mem_cons_of_mem x h

theorem mem_setExtend_of_mem (xs : List Str) (s : List Str) (y : Str) (h : y ∈ s) :
    y ∈ setExtend s xs := by
  induction xs generalizing s with
  | nil => exact h
  | cons x xs ih => exact ih (setInsert s x) (mem_setInsert_of_mem s x y h)

theorem mem_setExtend_of_mem_list (xs : List Str) (s : List Str) (x : Str) (h : x ∈ xs) :
    x ∈ setExtend s xs := by
  induction xs generalizing s with
  | nil => cases h
  | cons z zs ih =>
    cases h with
    | head => exact mem_setExtend_of_mem zs (setInsert s x) x (mem_setInsert_self s x)
    | tail _ h2 => exact ih (setInsert s z) h2

theorem evaluate_used_super (c : Condition) (flags used : List Str) (f : Str)
    (h : f ∈ c.mentioned_flags) : f ∈ (c.evaluate flags used).2 := by
  cases c with
  | Single g =>
    simp only [Condition.mentioned_flags, List.mem_singleton] at h
    subst h
    exact mem_setInsert_self used f
  | And ts => exact mem_setExtend_of_mem_list ts used f h
  | Or ts => exact mem_setExtend_of_mem_list ts used f h

theorem evaluate_used_mono (c : Condition) (flags used : List Str) (f : Str)
    (h : f ∈ used) : f ∈ (c.evaluate flags used).2 := by
  cases c with
  | Single g => exact mem_setInsert_of_mem used g f h
  | And ts => exact mem_setExtend_of_mem ts used f h
  | Or ts => exact mem_setExtend_of_mem ts used f h

theorem identList1_shape (l r : Str) (ts : List Str) (h : identList1 l = some (r, ts)) :
    ∃ t0 ts2, ts = t0 :: ts2 := by
  unfold identList1 at h
  split at h
  · exact absurd h (by simp)
  case h_2 rest tok heq =>
    refine ⟨tok, (identListLoop rest.length rest).2, ?_⟩
    simp only [Option.some.injEq, Prod.mk.injEq] at h
    exact h.2.symm

theorem parse_and_shape (l r : Str) (c : Condition) (h : parse_and l = some (r, c)) :
    ∃ t0 ts, c = .And (t0 :: ts) := by
  unfold parse_and at h
  split at h
  · exact absurd h (by simp)
  split at h
  · exact absurd h (by simp)
  split at h
  · exact absurd h (by simp)
  case h_2 r1 _ r2 _ r3 toks hil =>
    split at h
    case h_1 r5 _ =>
      simp only [Option.some.injEq, Prod.mk.injEq] at h
      obtain ⟨t0, ts2, hts⟩ := identList1_shape _ _ _ hil
      exact ⟨t0, ts2, h.2.symm.trans (by rw [hts])⟩
    · exact absurd h (by simp)

theorem parse_or_shape (l r : Str) (c : Condition) (h : parse_or l = some (r, c)) :
    ∃ t0 ts, c = .Or (t0 :: ts) := by
  unfold parse_or at h
  split at h
  · exact absurd h (by simp)
  split at h
  · exact absurd h (by simp)
  split at h
  · exact absurd h (by simp)
  case h_2 r1 _ r2 _ r3 toks hil =>
    split at h
    case h_1 r5 _ =>
      simp only [Option.some.injEq, Prod.mk.injEq] at h
      obtain ⟨t0, ts2, hts⟩ := identList1_shape _ _ _ hil
      exact ⟨t0, ts2, h.2.symm.trans (by rw [hts])⟩
    · exact absurd h (by simp)

theorem parse_single_shape (l r : Str) (c : Condition) (h : parse_single l = some (r, c)) :
    ∃ t, c = .Single t := by
  unfold parse_single at h
  split at h
  · exact absurd h (by simp)
  case h_2 rest tok heq =>
    simp only [Option.some.injEq, Prod.mk.injEq] at h
    exact ⟨tok, h.2.symm⟩

theorem parse_line_isSome (l : Str) : (parse_line l).isSome = true := by
  unfold parse_line
  split
  · rfl
  split
  · rfl
  · rfl

/-! ### Invariants of the inclusion engine loop -/

theorem chain_head_true (l : List Bool) (hc : List.Chain' bimp l)
    (hh : l.head? = some true) : ∀ x ∈ l, x = true := by
  induction l with
  | nil => intro x hx; cases hx
  | cons a t ih =>
    intro x hx
    have ha : a = true := by simpa using hh
    cases hx with
    | head => exact ha
    | tail _ hx2 =>
      cases t with
      | nil => cases hx2
      | cons b t2 =>
        rw [List.chain'_cons] at hc
        exact ih hc.2 (by simpa using hc.1 ha) x hx2

theorem step_ok_line_num (flags : List Str) (path : String) (s s2 : PState) (l : Str)
    (h : step flags path s l = .ok s2) : s2.line_num = s.line_num + 1 := by
  unfold step at h
  split at h
  · simp only [Except.ok.injEq] at h; rw [← h]
  · split at h
    · simp only [Except.ok.injEq] at h; rw [← h]
    · exact absurd h (by simp)
  · split at h
    · simp only [Except.ok.injEq] at h; rw [← h]
    · simp only [Except.ok.injEq] at h; rw [← h]
  · split at h
    · exact absurd h (by simp)
    · split at h
      · simp only [Except.ok.injEq] at h; rw [← h]
      · simp only [Except.ok.injEq] at h; rw [← h]

theorem step_ok_stack (flags : List Str) (path : String) (s s2 : PState) (l : Str)
    (h : step flags path s l = .ok s2) (hne : s.stack ≠ [])
    (hch : List.Chain' bimp s.stack) :
    s2.stack ≠ [] ∧ List.Chain' bimp s2.stack := by
  obtain ⟨a, t, hs⟩ := List.exists_cons_of_ne_nil hne
  unfold step at h
  split at h
  case h_1 rem c heq =>
    simp only [Except.ok.injEq] at h
    rw [← h]
    refine ⟨by simp, ?_⟩
    rw [List.chain'_cons']
    refine ⟨?_, hch⟩
    intro b hb
    rw [hs] at hb
    simp only [List.head?_cons, Option.mem_def, Option.some.injEq] at hb
    intro hab
    rw [hs] at hab
    simp only [List.headD_cons] at hab
    rw [← hb]
    exact ((Bool.and_eq_true _ _).mp hab).1
  case h_2 rem heq =>
    split at h
    case isTrue hlen =>
      simp only [Except.ok.injEq] at h
      rw [← h]
      refine ⟨?_, hch.tail⟩
      rw [hs] at hlen ⊢
      simp only [List.length_cons] at hlen
      cases t with
      | nil => simp at hlen
      | cons b t2 => simp
    case isFalse => exact absurd h (by simp)
  case h_3 rem c heq =>
    split at h
    · simp only [Except.ok.injEq] at h; rw [← h]; exact ⟨hne, hch⟩
    · simp only [Except.ok.injEq] at h; rw [← h]; exact ⟨hne, hch⟩
  case h_4 heq =>
    split at h
    · exact absurd h (by simp)
    · split at h
      · simp only [Except.ok.injEq] at h; rw [← h]; exact ⟨hne, hch⟩
      · simp only [Except.ok.injEq] at h; rw [← h]; exact ⟨hne, hch⟩

theorem step_used_mono (flags : List Str) (path : String) (s s2 : PState) (l : Str)
    (h : step flags path s l = .ok s2) : ∀ f ∈ s.used, f ∈ s2.used := by
  intro f hf
  unfold step at h
  split at h
  case h_1 rem c heq =>
    simp only [Except.ok.injEq] at h
    rw [← h]
    exact evaluate_used_mono c flags s.used f hf
  case h_2 rem heq =>
    split at h
    · simp only [Except.ok.injEq] at h; rw [← h]; exact hf
    · exact absurd h (by simp)
  case h_3 rem c heq =>
    split at h
    · simp only [Except.ok.injEq] at h; rw [← h]; exact hf
    · simp only [Except.ok.injEq] at h; rw [← h]; exact hf
  case h_4 heq =>
    split at h
    · exact absurd h (by simp)
    · split at h
      · simp only [Except.ok.injEq] at h; rw [← h]; exact hf
      · simp only [Except.ok.injEq] at h; rw [← h]; exact hf

theorem step_error_iff (flags : List Str) (path : String) (s : PState) (l : Str)
    (e : ProcessorError) :
    step flags path s l = .error e ↔
      ((∃ rem, parse_line l = some (rem, .Endif)) ∧ ¬s.stack.length > 1 ∧
        e = .MismatchedEndif (s.line_num + 1) path) := by
  cases hpl : parse_line l with
  | none =>
    have := parse_line_isSome l
    rw [hpl] at this
    cases this
  | some r =>
    obtain ⟨rem, res⟩ := r
    cases res with
    | If c =>
      constructor
      · intro h
        simp only [step, hpl] at h
        exact Except.noConfusion h
      · rintro ⟨⟨rem2, hr2⟩, -, -⟩
        injection hr2 with hp
        injection hp with h1 h2
        exact LineParseResult.noConfusion h2
    | Endif =>
      by_cases hlen : s.stack.length > 1
      · constructor
        · intro h
          simp only [step, hpl, if_pos hlen] at h
          exact Except.noConfusion h
        · rintro ⟨-, hnl, -⟩
          exact absurd hlen hnl
      · constructor
        · intro h
          simp only [step, hpl, if_neg hlen] at h
          injection h with he
          exact ⟨⟨rem, rfl⟩, hlen, he.symm⟩
        · rintro ⟨-, -, he⟩
          simp only [step, hpl, if_neg hlen, he]
    | Content c =>
      constructor
      · intro h
        simp only [step, hpl] at h
        split at h
        · exact Except.noConfusion h
        · exact Except.noConfusion h
      · rintro ⟨⟨rem2, hr2⟩, -, -⟩
        injection hr2 with hp
        injection hp with h1 h2
        exact LineParseResult.noConfusion h2

theorem runLines_ok_inv (flags : List Str) (path : String) :
    ∀ (lines : List Str) (s s2 : PState),
      runLines flags path s lines = .ok s2 → s.stack ≠ [] → List.Chain' bimp s.stack →
      s2.stack ≠ [] ∧ List.Chain' bimp s2.stack ∧
        s2.line_num = s.line_num + lines.length ∧ (∀ f ∈ s.used, f ∈ s2.used) := by
  intro lines
  induction lines with
  | nil =>
    intro s s2 h hne hch
    simp only [runLines, Except.ok.injEq] at h
    rw [← h]
    exact ⟨hne, hch, by simp, fun f hf => hf⟩
  | cons l ls ih =>
    intro s s2 h hne hch
    simp only [runLines] at h
    split at h
    · exact absurd h (by simp)
    case h_2 s1 hstep =>
      obtain ⟨hne1, hch1⟩ := step_ok_stack flags path s s1 l hstep hne hch
      obtain ⟨hne2, hch2, hln, hmono⟩ := ih s1 s2 h hne1 hch1
      refine ⟨hne2, hch2, ?_, ?_⟩
      · rw [hln, step_ok_line_num flags path s s1 l hstep, List.length_cons]
        omega
      · intro f hf
        exact hmono f (step_used_mono flags path s s1 l hstep f hf)

theorem runLines_append (flags : List Str) (path : String) :
    ∀ (pre rest : List Str) (s : PState),
      runLines flags path s (pre ++ rest) =
        match runLines flags path s pre with
        | .error e => .error e
        | .ok s2 => runLines flags path s2 rest := by
  intro pre
  induction pre with
  | nil => intro rest s; simp [runLines]
  | cons l ls ih =>
    intro rest s
    simp only [List.cons_append, runLines]
    split
    · rfl
    · exact ih rest _

theorem runLines_error_split (flags : List Str) (path : String) :
    ∀ (lines : List Str) (s : PState) (e : ProcessorError),
      runLines flags path s lines = .error e →
      ∃ pre l rest s2, lines = pre ++ l :: rest ∧
        runLines flags path s pre = .ok s2 ∧ step flags path s2 l = .error e := by
  intro lines
  induction lines with
  | nil => intro s e h; simp [runLines] at h
  | cons l ls ih =>
    intro s e h
    simp only [runLines] at h
    split at h
    case h_1 e2 hstep =>
      simp only [Except.error.injEq] at h
      subst h
      exact ⟨[], l, ls, s, rfl, rfl, hstep⟩
    case h_2 s1 hstep =>
      obtain ⟨pre, l2, rest, s2, hsplit, hpre, herr⟩ := ih s1 e h
      refine ⟨l :: pre, l2, rest, s2, by rw [hsplit]; rfl, ?_, herr⟩
      simp only [runLines, hstep]
      exact hpre

theorem runLines_used_mono (flags : List Str) (path : String) :
    ∀ (lines : List Str) (s s2 : PState),
      runLines flags path s lines = .ok s2 → ∀ f ∈ s.used, f ∈ s2.used := by
  intro lines
  induction lines with
  | nil =>
    intro s s2 h f hf
    simp only [runLines, Except.ok.injEq] at h
    rw [← h]
    exact hf
  | cons l ls ih =>
    intro s s2 h f hf
    simp only [runLines] at h
    split at h
    · exact absurd h (by simp)
    case h_2 s1 hstep =>
      exact ih s1 s2 h f (step_used_mono flags path s s1 l hstep f hf)

theorem runLines_mentioned (flags : List Str) (path : String) :
    ∀ (lines : List Str) (s s2 : PState),
      runLines flags path s lines = .ok s2 →
      ∀ l ∈ lines, ∀ (rem : Str) (c : Condition),
        parse_line l = some (rem, .If c) →
        ∀ f ∈ c.mentioned_flags, f ∈ s2.used := by
  intro lines
  induction lines with
  | nil => intro s s2 h l hl; cases hl
  | cons l0 ls ih =>
    intro s s2 h l hl rem c hpl f hf
    simp only [runLines] at h
    split at h
    · exact absurd h (by simp)
    case h_2 s1 hstep =>
      cases hl with
      | head =>
        have hu1 : f ∈ s1.used := by
          simp only [step, hpl] at hstep
          injection hstep with h2
          rw [← h2]
          exact evaluate_used_super c flags s.used f hf
        exact runLines_used_mono flags path ls s1 s2 h f hu1
      | tail _ hl2 => exact ih s1 s2 h l hl2 rem c hpl f hf

/-! ### Lemmas about the condition grammar and the suggestion helper -/

theorem parse_condition_shape (l r : Str) (c : Condition)
    (h : parse_condition l = some (r, c)) :
    (∃ t0 ts, c = .And (t0 :: ts)) ∨ (∃ t0 ts, c = .Or (t0 :: ts)) ∨
      (∃ t, c = .Single t) := by
  unfold parse_condition at h
  split at h
  case h_1 r2 heq =>
    injection h with h2
    subst h2
    exact Or.inl (parse_and_shape l r c heq)
  case h_2 =>
    split at h
    case h_1 r2 heq =>
      injection h with h2
      subst h2
      exact Or.inr (Or.inl (parse_or_shape l r c heq))
    case h_2 => exact Or.inr (Or.inr (parse_single_shape l r c h))

theorem foldl_min_spec (f : Str → Nat) (xs : List Str) : ∀ a : Str,
    (xs.foldl (fun acc y => if f y < f acc then y else acc) a = a ∨
      xs.foldl (fun acc y => if f y < f acc then y else acc) a ∈ xs) ∧
    f (xs.foldl (fun acc y => if f y < f acc then y else acc) a) ≤ f a ∧
    (∀ x ∈ xs, f (xs.foldl (fun acc y => if f y < f acc then y else acc) a) ≤ f x) := by
  induction xs with
  | nil =>
    intro a
    exact ⟨Or.inl rfl, le_refl _, fun x hx => absurd hx (List.not_mem_nil x)⟩
  | cons y ys ih =>
    intro a
    simp only [List.foldl_cons]
    by_cases hyx : f y < f a
    · rw [if_pos hyx]
      obtain ⟨hmem, hle, hall⟩ := ih y
      refine ⟨?_, le_trans hle (le_of_lt hyx), ?_⟩
      · cases hmem with
        | inl h => exact Or.inr (by rw [h]; exact List.mem_cons_self y ys)
        | inr h => exact Or.inr (List.mem_cons_of_mem y h)
      · intro x hx
        cases hx with
        | head => exact hle
        | tail _ hx2 => exact hall x hx2
    · rw [if_neg hyx]
      obtain ⟨hmem, hle, hall⟩ := ih a
      refine ⟨hmem.imp id (List.mem_cons_of_mem y), hle, ?_⟩
      intro x hx
      cases hx with
      | head => exact le_trans hle (Nat.le_of_not_lt hyx)
      | tail _ hx2 => exact hall x hx2

theorem minByKey_spec (f : Str → Nat) (l : List Str) (m : Str)
    (h : minByKey f l = some m) : m ∈ l ∧ ∀ x ∈ l, f m ≤ f x := by
  cases l with
  | nil => exact absurd h (by simp [minByKey])
  | cons x xs =>
    simp only [minByKey, Option.some.injEq] at h
    subst h
    obtain ⟨hmem, hle, hall⟩ := foldl_min_spec f xs x
    refine ⟨?_, ?_⟩
    · cases hmem with
      | inl h2 => rw [h2]; exact List.mem_cons_self x xs
      | inr h2 => exact List.mem_cons_of_mem x h2
    · intro z hz
      cases hz with
      | head => exact hle
      | tail _ hz2 => exact hall z hz2

/-! ### Claim theorems -/

/-- Claim C5: for every flag set and all flags a, b, evaluating And([a,b])
    returns true iff both a and b are members of the flag set, and
    evaluating Or([a,b]) returns true iff at least one of a, b is a
    member of the flag set. -/
theorem C5_and_or_truth_tables (flags used : List Str) (a b : Str) :
    (((Condition.And [a, b]).evaluate flags used).1 = true ↔ (a ∈ flags ∧ b ∈ flags)) ∧
    (((Condition.Or [a, b]).evaluate flags used).1 = true ↔ (a ∈ flags ∨ b ∈ flags)) := by
  constructor
  · simp [Condition.evaluate, List.all_cons, List.all_nil, Bool.and_eq_true, setContains_iff]
  · simp [Condition.evaluate, List.any_cons, List.any_nil, Bool.or_eq_true, setContains_iff]

/-- Claim C4: parseCondition fails when the trimmed text does not match one
    of the three grammar forms (conjunct three), or when non-whitespace
    characters remain after a recognized form (conjunct four, and the
    concrete case foo bar); the zero-flag forms are rejected (concrete
    cases) and a successful And or Or always carries at least one flag
    (conjuncts one and two). -/
theorem C4_condition_grammar :
    (∀ (s : Str) (ts : List Str), parse_condition_str s = .ok (.And ts) → ts ≠ []) ∧
    (∀ (s : Str) (ts : List Str), parse_condition_str s = .ok (.Or ts) → ts ≠ []) ∧
    (∀ s : Str, parse_condition (trimStr s) = none →
      parse_condition_str s = .error "Failed to parse condition structure") ∧
    (∀ (s rem : Str) (c : Condition), parse_condition (trimStr s) = some (rem, c) →
      multispace0 rem ≠ [] →
      parse_condition_str s =
        .error ("Unexpected trailing characters after condition: " ++
          String.mk (multispace0 rem))) ∧
    parse_condition_str "foo bar".toList =
      .error "Unexpected trailing characters after condition: bar" ∧
    parse_condition_str "()".toList = .error "Failed to parse condition structure" ∧
    parse_condition_str "(and)".toList = .error "Failed to parse condition structure" ∧
    parse_condition_str "(or)".toList = .error "Failed to parse condition structure" := by
  refine ⟨?_, ?_, ?_, ?_, rfl, rfl, rfl, rfl⟩
  · intro s ts h
    unfold parse_condition_str at h
    split at h
    · exact Except.noConfusion h
    case h_2 rem c heq =>
      simp only [] at h
      split at h
      · injection h with h2
        subst h2
        rcases parse_condition_shape _ _ _ heq with ⟨t0, ts2, hts⟩ | ⟨t0, ts2, hts⟩ | ⟨t, hts⟩
        · injection hts with h3
          rw [h3]
          simp
        · exact Condition.noConfusion hts
        · exact Condition.noConfusion hts
      · exact Except.noConfusion h
  · intro s ts h
    unfold parse_condition_str at h
    split at h
    · exact Except.noConfusion h
    case h_2 rem c heq =>
      simp only [] at h
      split at h
      · injection h with h2
        subst h2
        rcases parse_condition_shape _ _ _ heq with ⟨t0, ts2, hts⟩ | ⟨t0, ts2, hts⟩ | ⟨t, hts⟩
        · exact Condition.noConfusion hts
        · injection hts with h3
          rw [h3]
          simp
        · exact Condition.noConfusion hts
      · exact Except.noConfusion h
  · intro s h
    simp only [parse_condition_str, h]
  · intro s rem c h h2
    simp only [parse_condition_str, h]
    cases hrem : multispace0 rem with
    | nil => exact absurd hrem h2
    | cons c2 t => simp [hrem]

/-- Witness for claim C4: the condition text consisting of the and-form on
    flags a and b parses to an And with a nonempty flag list. -/
theorem C4_condition_grammar_witness : ("a".toList :: ["b".toList] : List Str) ≠ [] :=
  C4_condition_grammar.1 "(and a b)".toList ["a".toList, "b".toList] rfl

/-- Claim C8: the suggestion routine returns a candidate only if it
    minimizes Levenshtein distance to the flag among candidates different
    from the flag, and only if that minimal distance is at most
    min 2 (flag length / 2 + 1); when no distinct candidate meets the
    threshold, no suggestion is offered. -/
theorem C8_closest_match (flag : Str) (candidates : List Str) :
    (∀ m, find_closest_match flag candidates = some m →
      m ∈ candidates ∧ m ≠ flag ∧
      (∀ c ∈ candidates, c ≠ flag → levenshtein flag m ≤ levenshtein flag c) ∧
      levenshtein flag m ≤ min 2 (flag.length / 2 + 1)) ∧
    ((∀ c ∈ candidates, c ≠ flag → ¬levenshtein flag c ≤ min 2 (flag.length / 2 + 1)) →
      find_closest_match flag candidates = none) := by
  constructor
  · intro m h
    unfold find_closest_match at h
    split at h
    · exact Option.noConfusion h
    case h_2 best hmk =>
      split at h
      case isTrue hth =>
        injection h with h2
        subst h2
        obtain ⟨hmem, hall⟩ := minByKey_spec _ _ _ hmk
        rw [List.mem_filter] at hmem
        obtain ⟨hmc, hne⟩ := hmem
        refine ⟨hmc, of_decide_eq_true hne, ?_, hth⟩
        intro c hc hcne
        exact hall c (List.mem_filter.mpr ⟨hc, decide_eq_true hcne⟩)
      case isFalse => exact Option.noConfusion h
  · intro hno
    unfold find_closest_match
    split
    · rfl
    case h_2 best hmk =>
      obtain ⟨hmem, -⟩ := minByKey_spec _ _ _ hmk
      rw [List.mem_filter] at hmem
      rw [if_neg (hno best hmem.1 (of_decide_eq_true hmem.2))]

/-- Witness for claim C8 at the flag appel with candidates apple and
    banana: apple is suggested, is distinct from the flag, minimizes the
    distance and meets the threshold. -/
theorem C8_closest_match_witness :
    "apple".toList ∈ ["apple".toList, "banana".toList] ∧
    "apple".toList ≠ "appel".toList ∧
    (∀ c ∈ ["apple".toList, "banana".toList], c ≠ "appel".toList →
      levenshtein "appel".toList "apple".toList ≤ levenshtein "appel".toList c) ∧
    levenshtein "appel".toList "apple".toList ≤ min 2 ("appel".toList.length / 2 + 1) :=
  (C8_closest_match "appel".toList ["apple".toList, "banana".toList]).1 "apple".toList rfl

/-- Counterexample to claim C1 as stated: processing the single line
    containing content before the if-marker with flag set containing foo
    yields the whole line verbatim and an empty used set, not the trimmed
    fragment with foo recorded. -/
theorem C1_counterexample :
    process_content ["include this #if foo".toList] "t" ["foo".toList] [] =
      .ok (["include this #if foo".toList], []) ∧
    ["include this #if foo".toList] ≠ (["include this".toList] : List Str) ∧
    "foo".toList ∉ ([] : List Str) :=
  ⟨rfl, by decide, by decide⟩

/-- Claim C1 (amended): a line that does not begin, after leading
    whitespace, with the if-marker or the endif-marker — in particular any
    line where the first if-marker is preceded by non-whitespace content —
    is classified as plain content: no condition is parsed or evaluated, no
    flags are recorded, and the whole line verbatim is retained exactly
    when the current block is active. -/
theorem C1_inline_as_content (line : Str)
    (h1 : ¬"#if".toList.isPrefixOf (line.dropWhile isWS) = true)
    (h2 : ¬"#endif".toList.isPrefixOf (line.dropWhile isWS) = true) :
    parse_line line = some ([], .Content line) ∧
    ∀ (path : String) (flags used0 : List Str),
      process_content [line] path flags used0 = .ok ([line], used0) := by
  have hf : tagP "#if".toList (multispace0 line) = none := by
    simp only [tagP, multispace0]
    rw [if_neg h1]
  have hf2 : tagP "#endif".toList (multispace0 line) = none := by
    simp only [tagP, multispace0]
    rw [if_neg h2]
  have hif : parse_if_directive line = none := by
    simp only [parse_if_directive, hf]
  have hendif : parse_endif_directive line = none := by
    simp only [parse_endif_directive, hf2]
  have hpl : parse_line line = some ([], .Content line) := by
    simp only [parse_line, hif, hendif]
  refine ⟨hpl, ?_⟩
  intro path flags used0
  simp [process_content, runLines, step, hpl, initState]

/-- Witness for claim C1 (amended) at the concrete inline-looking line. -/
theorem C1_inline_as_content_witness :
    parse_line "include this #if foo".toList =
      some ([], .Content "include this #if foo".toList) ∧
    process_content ["include this #if foo".toList] "t" ["foo".toList] [] =
      .ok (["include this #if foo".toList], []) :=
  ⟨(C1_inline_as_content "include this #if foo".toList (by decide) (by decide)).1,
   (C1_inline_as_content "include this #if foo".toList (by decide) (by decide)).2
     "t" ["foo".toList] []⟩

/-- Claim C2 evaluation at the failing input: the condition text of the
    line whose trimmed content starts with the if-marker is malformed by
    the grammar, yet process_content succeeds and returns the line
    verbatim as retained content, with no ConditionParse error. -/
theorem C2_malformed_if_not_an_error :
    parse_condition_str "(and foo".toList = .error "Failed to parse condition structure" ∧
    process_content ["#if (and foo".toList] "t" ["foo".toList] [] =
      .ok (["#if (and foo".toList], []) :=
  ⟨rfl, rfl⟩

/-- Claim C9: parse_line always succeeds (its last alternative takes the
    whole line as content); a malformed directive such as the and-form
    missing its closing parenthesis is classified as plain content; and
    process_content can never return a ConditionParse error. -/
theorem C9_parse_line_total :
    (∀ l : Str, (parse_line l).isSome = true) ∧
    parse_line "#if (and foo".toList = some ([], .Content "#if (and foo".toList) ∧
    (∀ (lines : List Str) (path : String) (flags used0 : List Str)
      (cond : Str) (n : Nat) (p : String) (r : String),
      process_content lines path flags used0 ≠ .error (.ConditionParse cond n p r)) := by
  refine ⟨parse_line_isSome, rfl, ?_⟩
  intro lines path flags used0 cond n p r h
  unfold process_content at h
  split at h
  case h_1 e herr =>
    injection h with he
    subst he
    obtain ⟨pre, l, rest, s2, -, -, hstep⟩ :=
      runLines_error_split flags path lines (initState used0) _ herr
    rw [step_error_iff] at hstep
    exact ProcessorError.noConfusion hstep.2.2
  case h_2 s hok =>
    split at h
    · injection h with he
      exact ProcessorError.noConfusion he
    · exact Except.noConfusion h

/-- Witness for claim C9 at a concrete line. -/
theorem C9_parse_line_total_witness : (parse_line "x".toList).isSome = true :=
  C9_parse_line_total.1 "x".toList

/-- Claim C10: a block-open directive with trailing text after its
    condition is parsed to the initial condition only, the remainder is
    neither emitted nor recorded nor an error, and in general the engine
    step depends only on the classification result, never on the
    unconsumed remainder of the line. -/
theorem C10_trailing_ignored :
    parse_line "#if foo bar".toList =
      some ("bar".toList, .If (.Single "foo".toList)) ∧
    process_content ["#if foo bar".toList, "x".toList, "#endif".toList] "t"
        ["foo".toList] [] = .ok (["x".toList], ["foo".toList]) ∧
    (∀ (line line2 rem rem2 : Str) (res : LineParseResult),
      parse_line line = some (rem, res) → parse_line line2 = some (rem2, res) →
      ∀ (flags : List Str) (path : String) (s : PState),
        step flags path s line = step flags path s line2) := by
  refine ⟨rfl, rfl, ?_⟩
  intro line line2 rem rem2 res hl hl2 flags path s
  unfold step
  rw [hl, hl2]
  cases res <;> rfl

/-- Witness for claim C10: two open directives sharing a condition but
    differing in trailing text produce identical engine steps. -/
theorem C10_trailing_ignored_witness :
    step [] "t" (initState []) "#if a b".toList =
      step [] "t" (initState []) "#if a c".toList :=
  C10_trailing_ignored.2.2 "#if a b".toList "#if a c".toList "b".toList "c".toList
    (.If (.Single "a".toList)) rfl rfl [] "t" (initState [])

/-- Claim C6: in every state the engine reaches, the inclusion stack is
    monotone from its top downwards — once a level is pushed as false
    every deeper level is also false — and whenever any stack level is
    false, processing a plain content line leaves the retained output
    unchanged, regardless of the line text. -/
theorem C6_disabled_content (flags : List Str) (path : String) (used0 : List Str)
    (pre : List Str) (s : PState)
    (h : runLines flags path (initState used0) pre = .ok s) :
    List.Chain' bimp s.stack ∧
    (false ∈ s.stack →
      ∀ (line rem c : Str) (s2 : PState),
        parse_line line = some (rem, .Content c) →
        step flags path s line = .ok s2 → s2.output = s.output) := by
  obtain ⟨hne, hch, -, -⟩ :=
    runLines_ok_inv flags path pre (initState used0) s h (by simp [initState])
      (by simp [initState])
  refine ⟨hch, ?_⟩
  intro hfalse line rem c s2 hpl hstep
  obtain ⟨a, t, hs⟩ := List.exists_cons_of_ne_nil hne
  have ha : a = false := by
    by_contra hcontra
    have ha2 : a = true := by
      cases a
      · exact absurd rfl hcontra
      · rfl
    have hall := chain_head_true s.stack hch (by rw [hs, ha2]; rfl)
    exact Bool.noConfusion (hall false hfalse)
  simp only [step, hpl] at hstep
  rw [hs, ha] at hstep
  simp only [List.headD_cons] at hstep
  rw [if_neg (by simp)] at hstep
  injection hstep with h2
  rw [← h2]

/-- Witness for claim C6: after processing an open directive whose
    condition is false, a plain content line leaves the output unchanged. -/
theorem C6_disabled_content_witness :
    ({ stack := [false, true], output := [], used := ["A".toList],
        line_num := 2 } : PState).output =
      ({ stack := [false, true], output := [], used := ["A".toList],
          line_num := 1 } : PState).output :=
  (C6_disabled_content [] "t" [] ["#if A".toList]
      { stack := [false, true], output := [], used := ["A".toList], line_num := 1 }
      rfl).2
    (by decide) "x".toList [] "x".toList
    { stack := [false, true], output := [], used := ["A".toList], line_num := 2 }
    rfl rfl

/-- Claim C7: whenever process_content accepts a file, the returned used
    set contains every flag mentioned in the condition of every line the
    recognizer classifies as a block-open directive, including directives
    inside an inactive enclosing block — evaluation and recording are
    unconditional. -/
theorem C7_used_flags (lines : List Str) (path : String)
    (flags used0 out used : List Str)
    (h : process_content lines path flags used0 = .ok (out, used)) :
    ∀ l ∈ lines, ∀ (rem : Str) (c : Condition),
      parse_line l = some (rem, .If c) → ∀ f ∈ c.mentioned_flags, f ∈ used := by
  unfold process_content at h
  split at h
  · exact Except.noConfusion h
  case h_2 s hok =>
    split at h
    · exact Except.noConfusion h
    · injection h with h2
      injection h2 with ho hu
      intro l hl rem c hpl f hf
      rw [← hu]
      exact runLines_mentioned flags path lines (initState used0) s hok l hl rem c hpl f hf

/-- Witness for claim C7: the inner directive on flag B sits inside an
    inactive block on flag A, yet B is recorded in the used set. -/
theorem C7_used_flags_witness :
    "B".toList ∈ (["B".toList, "A".toList] : List Str) :=
  C7_used_flags ["#if A".toList, "#if B".toList, "#endif".toList, "#endif".toList]
    "t" [] [] [] ["B".toList, "A".toList] rfl "#if B".toList (by decide)
    [] (.Single "B".toList) rfl "B".toList (by decide)

/-- Counterexample to claim C3 as stated: a file ending with an open block
    fails with the end-of-input mismatch error, and that error value
    carries no line number, only the file identifier. -/
theorem C3_counterexample :
    process_content ["#if A".toList] "t" ["A".toList] [] =
      .error (.MismatchedIf "t") ∧
    errLineNum (.MismatchedIf "t") = none :=
  ⟨rfl, rfl⟩

/-- Claim C3 (amended): process_content fails with MismatchedEndif exactly
    when some line is classified as a close marker while the stack holds
    only the sentinel, with the 1-based number of that line and the file
    identifier; it fails with MismatchedIf exactly when the whole input
    runs to completion leaving the stack length different from one, and
    that error carries only the file identifier, no line number. -/
theorem C3_mismatch_errors (lines : List Str) (path : String)
    (flags used0 : List Str) :
    (∀ (n : Nat) (p : String),
      process_content lines path flags used0 = .error (.MismatchedEndif n p) ↔
        (p = path ∧ ∃ pre l rest s, lines = pre ++ l :: rest ∧ n = pre.length + 1 ∧
          runLines flags path (initState used0) pre = .ok s ∧
          (∃ rem, parse_line l = some (rem, .Endif)) ∧ s.stack.length = 1)) ∧
    (∀ p : String,
      process_content lines path flags used0 = .error (.MismatchedIf p) ↔
        (p = path ∧ ∃ s, runLines flags path (initState used0) lines = .ok s ∧
          s.stack.length ≠ 1)) ∧
    (∀ (n : Nat) (p : String), errLineNum (.MismatchedEndif n p) = some n) ∧
    (∀ p : String, errLineNum (.MismatchedIf p) = none) := by
  refine ⟨?_, ?_, fun n p => rfl, fun p => rfl⟩
  · intro n p
    constructor
    · intro h
      unfold process_content at h
      split at h
      case h_1 e herr =>
        injection h with he
        subst he
        obtain ⟨pre, l, rest, s2, hsplit, hpre, hstep⟩ :=
          runLines_error_split flags path lines (initState used0) _ herr
        rw [step_error_iff] at hstep
        obtain ⟨⟨rem, hrem⟩, hnl, he2⟩ := hstep
        injection he2 with hn hp
        obtain ⟨hne2, -, hln, -⟩ :=
          runLines_ok_inv flags path pre (initState used0) s2 hpre
            (by simp [initState]) (by simp [initState])
        have hlen1 : s2.stack.length = 1 := by
          obtain ⟨a, t, hs⟩ := List.exists_cons_of_ne_nil hne2
          rw [hs] at hnl ⊢
          simp only [List.length_cons] at hnl ⊢
          omega
        refine ⟨hp, pre, l, rest, s2, hsplit, ?_, hpre, ⟨rem, hrem⟩, hlen1⟩
        rw [hn, hln]
        simp [initState]
      case h_2 s hok =>
        split at h
        · injection h with he
          exact ProcessorError.noConfusion he
        · exact Except.noConfusion h
    · rintro ⟨hp, pre, l, rest, s2, hsplit, hn, hpre, ⟨rem, hrem⟩, hlen⟩
      subst hp
      subst hsplit
      subst hn
      have hnl : ¬s2.stack.length > 1 := by omega
      have hstep : step flags p s2 l =
          .error (.MismatchedEndif (s2.line_num + 1) p) := by
        rw [step_error_iff]
        exact ⟨⟨rem, hrem⟩, hnl, rfl⟩
      have hln : s2.line_num = pre.length := by
        obtain ⟨-, -, h3, -⟩ :=
          runLines_ok_inv flags p pre (initState used0) s2 hpre
            (by simp [initState]) (by simp [initState])
        simpa [initState] using h3
      unfold process_content
      rw [runLines_append]
      simp only [hpre, runLines, hstep]
      rw [hln]
  · intro p
    constructor
    · intro h
      unfold process_content at h
      split at h
      case h_1 e herr =>
        injection h with he
        subst he
        obtain ⟨pre, l, rest, s2, -, -, hstep⟩ :=
          runLines_error_split flags path lines (initState used0) _ herr
        rw [step_error_iff] at hstep
        exact ProcessorError.noConfusion hstep.2.2
      case h_2 s hok =>
        split at h
        case isTrue hlen =>
          injection h with he
          injection he with hp2
          exact ⟨hp2.symm, s, hok, hlen⟩
        · exact Except.noConfusion h
    · rintro ⟨hp, s, hok, hlen⟩
      subst hp
      unfold process_content
      simp only [hok]
      rw [if_pos hlen]

end Templater
